import Mathlib

/-!
Verification of the farn case-generation and sampling engine.

The development shallowly embeds the Python sources of the farn repository:

* `src/farn/sampling/sampling.py` (class `DiscreteSampling`),
* `src/farn/farn.py` (dataclass `Case`, function `create_cases`),
* `src/farn/core/case.py` (classes `Case` and `Cases`).

Pure Python functions become Lean functions; the mutable accumulator style of
`create_cases` becomes explicit recursion returning the produced values.
Python floats appearing only as carried data are an abstract type `α`; the one
place where float arithmetic matters (`leading_zeros`) is modelled over exact
reals, with the justification recorded at the definition.  External library
calls (numpy, pyDOE3, scipy) are modelled as opaque inputs constrained by the
documented contracts of those libraries (for instance, the shape of the array
returned by an LHS engine).  Python `eval` of a filter expression is modelled
as an opaque evaluator function receiving the expression string and the scope
that the source builds; `None` models a raised exception.
-/

namespace Farn

/-- Model of the Python values that occur as parameter values in farn
(`float | int | bool | str | None`, see `farn/core/parameter.py`).
Floats are modelled as rationals; only truthiness and carried data matter. -/
inductive PyVal where
  | none
  | bool (b : Bool)
  | int (n : Int)
  | float (q : ℚ)
  | str (s : String)
deriving DecidableEq

/-- Python truthiness of a `PyVal` (`bool(x)`): `None`, `False`, `0`, `0.0`
and the empty string are falsy. -/
def PyVal.truthy : PyVal → Bool
  | .none => false
  | .bool b => b
  | .int n => n != 0
  | .float q => q != 0
  | .str s => s != ""

/-! ## Sampling: case names and leading zeros (`sampling.py`) -/

/-- Number of decimal digits, fuel-based so that it evaluates by kernel
reduction.  `numDigitsAux fuel m` is the digit count of `m` whenever
`m ≤ fuel` (each step divides `m` by ten). -/
def numDigitsAux : Nat → Nat → Nat
  | 0, _ => 1
  | fuel + 1, m => if m < 10 then 1 else numDigitsAux fuel (m / 10) + 1

/-- Number of decimal digits of `m` (with `numDigits 0 = 1`). -/
def numDigits (m : Nat) : Nat := numDigitsAux m m

/-- Embedding of `self.leading_zeros = int(math.log10(self.number_of_samples) - 1.0e-06) + 1`
(`sampling.py` lines 248 and 599), modelled over exact reals.

Derivation of the model.  For `n ≥ 2` the float expression is positive, so
`int` truncation is the floor.  Writing `k = ⌊log10 n⌋ = numDigits n - 1`,
we have `⌊log10 n - 10⁻⁶⌋ = k` when `log10 n - k ≥ 10⁻⁶` and `k - 1`
otherwise; the first condition is equivalent, for integer `n`, to
`10 ^ (k * 10⁶ + 1) ≤ n ^ (10⁶)` (raise `10 ^ (k + 10⁻⁶) ≤ n` to the
millionth power).  For `n = 1`, `int(0 - 10⁻⁶) = 0` because Python `int`
truncates toward zero, so the result is `1`.  The double-precision error of
`math.log10` (a few ulp, below `10⁻¹⁵`) is far smaller than the `10⁻⁶`
margin for every representable sample count, so exact reals are faithful.
For `n = 0` the source raises `ValueError` (`log10(0)`); the value returned
here for `0` is irrelevant and never used under the claims. -/
def leadingZeros (n : Nat) : Nat :=
  if n ≤ 1 then 1
  else
    let k := numDigits n - 1
    if 10 ^ (k * 1000000 + 1) ≤ n ^ 1000000 then k + 1 else k

/-- Embedding of `format(i, f"0{N}d")` for a natural `i`: decimal digits of
`i`, left-padded with zeros to a minimum width. -/
def formatPadded (width : Nat) (i : Nat) : String :=
  let s := Nat.repr i
  String.mk (List.replicate (width - s.length) '0') ++ s

/-- Embedding of `DiscreteSampling._generate_case_names` (`sampling.py`
lines 601-607): `f"{self.layer_name}_{format(i, _format_specifier)}"` for
`i` in `range(self.number_of_samples)`, with the zero-padding width
`self.leading_zeros`. -/
def generateCaseNames (layerName : String) (numberOfSamples : Nat) : List String :=
  (List.range numberOfSamples).map
    (fun i => layerName ++ "_" ++ formatPadded (leadingZeros numberOfSamples) i)

/-- Modelled from the spec: the claim states the zero-padding width
`floor(log10(N - epsilon)) + 1` for a small `epsilon > 0`.  For an integer
`N ≥ 2` and any `epsilon` in `(0, 1)` this floor is independent of
`epsilon`: `⌊log10 (N - ε)⌋ = w - 1` is equivalent to
`10 ^ (w - 1) ≤ N - ε < 10 ^ w`, which for integer `N` is equivalent to
`10 ^ (w - 1) ≤ N - 1 < 10 ^ w`; hence the width is the decimal digit
count of `N - 1`.  For `N = 1` the formula gives `⌊log10 (1 - ε)⌋ + 1 = 0`. -/
def claimWidth (n : Nat) : Nat :=
  if n = 1 then 0 else numDigits (n - 1)

/-- Modelled from the spec: the case names asserted by the claim,
`{layer_name}_{index}` with the index zero-padded to width `claimWidth N`. -/
def claimCaseNames (layerName : String) (numberOfSamples : Nat) : List String :=
  (List.range numberOfSamples).map
    (fun i => layerName ++ "_" ++ formatPadded (claimWidth numberOfSamples) i)

/-! ## Sampling: parameters, bounding box and the sample dict (`sampling.py`)

Sampled values are carried abstractly: `α` stands for Python floats (or, for
fixed sampling, arbitrary values).  The external numerical engines (numpy
`linspace`, the pyDOE3 LHS engine, the scipy Sobol engine, the Hilbert-curve
pipeline, scipy `rvs`) are modelled as opaque inputs; the library contracts
about their output shapes appear as hypotheses of the theorems. -/

/-- The sampling parameters read by `DiscreteSampling.set_sampling_parameters`
and the generator methods: `_names`, `_values`, `_ranges`,
`_numberOfSamples` (after the `int(...)` cast), `_includeBoundingBox`
(`some b` when the key is present with a `bool` value, `none` when absent or
not a `bool`, cf. the `isinstance` guard at `sampling.py` line 591) and
`_onset`. -/
structure SamplingParams (α : Type) where
  names : List String
  values : List (List α)
  ranges : List (α × α)
  numberOfSamples : Nat
  includeBoundingBox : Option Bool
  onset : Nat
deriving DecidableEq

/-- `self.include_bounding_box` after `_determine_number_of_samples`
(`sampling.py` lines 590-594): the freshly constructed object starts with
`False` and the flag is overwritten only by a present boolean key. -/
def includeBB (p : SamplingParams α) : Bool := p.includeBoundingBox.getD false

/-- `self.number_of_bb_samples` (`sampling.py` lines 596-597):
`2 ** number_of_fields` when the bounding box is requested, else `0`. -/
def numberOfBBSamples (p : SamplingParams α) : Nat :=
  if includeBB p then 2 ^ p.names.length else 0

/-- `self.number_of_samples` after `_determine_number_of_samples`
(`sampling.py` lines 595-598): the requested `_numberOfSamples` plus the
bounding-box samples. -/
def totalNumberOfSamples (p : SamplingParams α) : Nat :=
  p.numberOfSamples + numberOfBBSamples p

/-- Nested Python tuples as built by `itertools.product` inside
`DiscreteSampling._create_bounding_box`. -/
inductive PyTuple (α : Type) where
  | leaf (a : α)
  | pair (t : PyTuple α) (u : PyTuple α)
deriving DecidableEq

/-- `DiscreteSampling._flatten` (`sampling.py` lines 670-679): left-to-right
flattening of nested tuples. -/
def PyTuple.flatten : PyTuple α → List α
  | .leaf a => [a]
  | .pair t u => t.flatten ++ u.flatten

/-- `itertools.product(self.sampling_parameters["_ranges"][0], ...["_ranges"][1])`
(`sampling.py` lines 636-641): the four pairs, first range outermost. -/
def productInit (r1 r2 : α × α) : List (PyTuple α) :=
  [.pair (.leaf r1.1) (.leaf r2.1), .pair (.leaf r1.1) (.leaf r2.2),
   .pair (.leaf r1.2) (.leaf r2.1), .pair (.leaf r1.2) (.leaf r2.2)]

/-- `tmp = list(itertools.product(tmp, ranges[field_index + 1]))`
(`sampling.py` line 643): every accumulated tuple is extended with the lower
and then the upper bound of the next range. -/
def productStep (ts : List (PyTuple α)) (r : α × α) : List (PyTuple α) :=
  match ts with
  | [] => []
  | t :: ts' => .pair t (.leaf r.1) :: .pair t (.leaf r.2) :: productStep ts' r

/-- `DiscreteSampling._create_bounding_box` (`sampling.py` lines 627-650).
For a single range the two scalar bounds become singleton points; otherwise
the bounds of the first two ranges are paired and the remaining ranges are
folded in with `itertools.product`, and every tuple is flattened.  The
function assumes `ranges.length = number_of_fields` (the loop bound of the
source); on an empty range list the source raises `IndexError`. -/
def createBoundingBox (ranges : List (α × α)) : List (List α) :=
  match ranges with
  | [] => []
  | [r] => [[r.1], [r.2]]
  | r1 :: r2 :: rest => (rest.foldl productStep (productInit r1 r2)).map PyTuple.flatten

/-- Modelled from the spec: the cartesian-product corner points of the
declared `[min, max]` ranges, first range varying slowest. -/
def cornerPoints (ranges : List (α × α)) : List (List α) :=
  match ranges with
  | [] => [[]]
  | r :: rest =>
      (cornerPoints rest).map (fun c => r.1 :: c) ++ (cornerPoints rest).map (fun c => r.2 :: c)

/-- `values.T[index].tolist()` (`sampling.py` line 667): the `j`-th column of
a rectangular row-major matrix. -/
def column [Inhabited α] (m : List (List α)) (j : Nat) : List α :=
  m.map (fun row => row.getD j default)

/-- The loop `for index, _ in enumerate(self.fields): samples[self.fields[index]] = values.T[index].tolist()`
(`sampling.py` lines 666-667), producing the per-field dict entries in field
order. -/
def writeColumns [Inhabited α] (m : List (List α)) : Nat → List String → List (String × List α)
  | _, [] => []
  | j, f :: fs => (f, column m j) :: writeColumns m (j + 1) fs

/-- `DiscreteSampling._write_values_into_samples_dict` (`sampling.py` lines
652-668): when the bounding box is requested, its corner points are
concatenated before the engine values (`np.concatenate`, axis 0); then each
field receives its column. -/
def writeValuesIntoSamples [Inhabited α] (p : SamplingParams α) (engine : List (List α)) :
    List (String × List α) :=
  let values := if includeBB p then createBoundingBox p.ranges ++ engine else engine
  writeColumns values 0 p.names

/-- The dict returned by the `_generate_samples_using_*` methods: the
`"_case_name"` entry followed by one entry per field (`generate_samples`
docstring, `sampling.py` lines 177-193). -/
structure Samples (α : Type) where
  caseNames : List String
  entries : List (String × List α)
deriving DecidableEq

/-- `DiscreteSampling._generate_samples_using_fixed_sampling` (`sampling.py`
lines 222-256).  `none` models the raised `ValueError` (unequal per-parameter
value counts) and the `IndexError` on an empty `_values`; the source also
raises `IndexError` when `_names` is longer than `_values`, which the `zip`
here silently truncates - the claims assume equal lengths. -/
def generateFixedSamples (layerName : String) (p : SamplingParams α) : Option (Samples α) :=
  if p.values.isEmpty then Option.none
  else if p.values.all (fun v => v.length == (p.values.headD []).length) then
    Option.some ⟨generateCaseNames layerName (p.values.headD []).length, p.names.zip p.values⟩
  else Option.none

/-- `DiscreteSampling._generate_samples_using_linspace_sampling` (`sampling.py`
lines 258-273); `np.linspace` is the opaque `linspace` argument. -/
def generateLinSpaceSamples (linspace : α → α → Nat → List α) (layerName : String)
    (p : SamplingParams α) : Samples α :=
  ⟨generateCaseNames layerName (totalNumberOfSamples p),
   (p.names.zip p.ranges).map (fun e => (e.1, linspace e.2.1 e.2.2 (totalNumberOfSamples p)))⟩

/-- The common shape of `_generate_samples_using_uniform_lhs_sampling`,
`_generate_samples_using_sobol_sampling` and
`_generate_samples_using_hilbert_sampling` (`sampling.py` lines 275-281,
321-329, 367-377): `_generate_samples_dict` followed by
`_write_values_into_samples_dict` on the engine output. -/
def generateLhsStyleSamples [Inhabited α] (layerName : String) (p : SamplingParams α)
    (engine : List (List α)) : Samples α :=
  ⟨generateCaseNames layerName (totalNumberOfSamples p), writeValuesIntoSamples p engine⟩

/-- One `np.clip` cell: `np.clip(values, lower_bounds, upper_bounds)` resets a
value below the lower bound to it and a value above the upper bound to it. -/
def clipValue [LinearOrder α] (lo hi x : α) : α := min (max x lo) hi

/-- One row of `np.clip` with per-column bounds. -/
def clipRow [LinearOrder α] (ranges : List (α × α)) (row : List α) : List α :=
  (row.zip ranges).map (fun e => clipValue e.2.1 e.2.2 e.1)

/-- `np.clip(values, range_lower_bounds, range_upper_bounds)` on the whole
matrix (`sampling.py` lines 312-315). -/
def clipValues [LinearOrder α] (ranges : List (α × α)) (m : List (List α)) : List (List α) :=
  m.map (clipRow ranges)

/-- `DiscreteSampling._generate_samples_using_normal_lhs_sampling`
(`sampling.py` lines 283-319): like the LHS shape, but the engine values are
clipped to `_ranges` when ranges were configured. -/
def generateNormalLhsSamples [Inhabited α] [LinearOrder α] (layerName : String)
    (p : SamplingParams α) (engine : List (List α)) : Samples α :=
  let values := if p.ranges.isEmpty then engine else clipValues p.ranges engine
  ⟨generateCaseNames layerName (totalNumberOfSamples p), writeValuesIntoSamples p values⟩

/-- `DiscreteSampling._generate_samples_using_arbitrary_sampling`
(`sampling.py` lines 331-365): every field receives
`dist.rvs(*parameters, size=self.number_of_samples)`, modelled by the opaque
`rvs` (field index, size).  Note that this variant never calls
`_write_values_into_samples_dict`, so no bounding-box corners are prepended
even though `_includeBoundingBox` is a required argument of the variant
(acknowledged by the comment at `sampling.py` line 363). -/
def generateArbitrarySamples (rvs : Nat → Nat → List α) (layerName : String)
    (p : SamplingParams α) : Samples α :=
  ⟨generateCaseNames layerName (totalNumberOfSamples p),
   (List.range p.names.length).map (fun i => (p.names.getD i "", rvs i (totalNumberOfSamples p)))⟩

/-- The sampling types registered in
`DiscreteSampling._set_up_known_sampling_types`. -/
inductive SamplingType where
  | fixed
  | linSpace
  | uniformLhs
  | normalLhs
  | sobol
  | arbitrary
  | hilbertCurve
deriving DecidableEq

/-- `DiscreteSampling.generate_samples` (`sampling.py` lines 177-220):
dispatch on the configured sampling type. -/
def generateSamples [Inhabited α] [LinearOrder α] (linspace : α → α → Nat → List α)
    (rvs : Nat → Nat → List α) (engine : List (List α)) (st : SamplingType)
    (layerName : String) (p : SamplingParams α) : Option (Samples α) :=
  match st with
  | .fixed => generateFixedSamples layerName p
  | .linSpace => Option.some (generateLinSpaceSamples linspace layerName p)
  | .uniformLhs => Option.some (generateLhsStyleSamples layerName p engine)
  | .normalLhs => Option.some (generateNormalLhsSamples layerName p engine)
  | .sobol => Option.some (generateLhsStyleSamples layerName p engine)
  | .arbitrary => Option.some (generateArbitrarySamples rvs layerName p)
  | .hilbertCurve => Option.some (generateLhsStyleSamples layerName p engine)

/-- The per-variable sequence length asserted by the sample-count claim: the
supplied value-list length for fixed sampling, the (possibly bounding-box
augmented) number of samples otherwise. -/
def expectedSampleCount (st : SamplingType) (p : SamplingParams α) : Nat :=
  match st with
  | .fixed => (p.values.headD []).length
  | _ => totalNumberOfSamples p

/-- The well-formedness of a sampling invocation assumed by the sample-count
claim: the documented output-shape contracts of the external engines, and
consistent `_ranges` when the bounding box is requested. -/
def ValidSamplingInput (linspace : α → α → Nat → List α) (rvs : Nat → Nat → List α)
    (engine : List (List α)) (st : SamplingType) (p : SamplingParams α) : Prop :=
  match st with
  | .fixed => True
  | .linSpace => ∀ a b n, (linspace a b n).length = n
  | .arbitrary => ∀ i n, (rvs i n).length = n
  | _ => engine.length = p.numberOfSamples ∧
      (includeBB p = true → p.ranges.length = p.names.length ∧ 1 ≤ p.names.length)

/-- A concrete linspace stub satisfying the numpy length contract, used to
instantiate witnesses. -/
def linspaceW : Int → Int → Nat → List Int := fun a _ n => List.replicate n a

/-- A concrete scipy `rvs` stub satisfying the length contract, used to
instantiate witnesses. -/
def rvsW : Nat → Nat → List Int := fun _ n => List.replicate n 0

/-- A concrete two-row engine output (two samples of two fields), used to
instantiate witnesses. -/
def engineW : List (List Int) := [[5, 6], [7, 8]]

/-- Concrete sampling parameters for witnesses: two fields `a`, `b` with
ranges `[0,1]` and `[2,3]`, two requested samples, bounding box requested. -/
def paramsW : SamplingParams Int := ⟨["a", "b"], [], [(0, 1), (2, 3)], 2, Option.some true, 0⟩

/-! ## Case model (`farn/core/case.py`, `farn/farn.py`) -/

/-- One parameter (`farn/core/parameter.py`): a name and a value.  A Python
`None` name is modelled by the empty string; both are falsy in the source's
`if not parameter.name` checks, which is the only way names are tested. -/
structure Param where
  name : String
  value : PyVal
deriving DecidableEq

/-- The `_condition` element of a layer: the optional `_filter` expression
string and the optional `_action` string. -/
structure Condition where
  filterExpr : Option String
  action : Option String
deriving DecidableEq

/-- Python truthiness check `not x` for an optional string: `None` and the
empty string are falsy. -/
def optStrFalsy : Option String → Bool
  | Option.none => true
  | Option.some s => s == ""

/-- The `Case` attributes (`farn/core/case.py` lines 54-78, `farn/farn.py`
lines 141-159).  `condition = none` models both a `None` and an empty
`_condition` dict (both falsy in `if not self.condition`); `path` is the
list of path segments below the case directory; the Lean field `caseName`
renders the Python attribute `case`. -/
structure Case where
  caseName : String
  layer : String
  level : Nat
  no_of_samples : Nat
  index : Nat
  path : List String
  is_leaf : Bool
  condition : Option Condition
  parameters : List Param
  command_sets : Option (List (String × List String))
deriving DecidableEq

/-- A value bound in the expression-evaluation scope (`f_locals`). -/
inductive ScopeVal where
  | vStr (s : String)
  | vInt (n : Int)
  | vCond (c : Option Condition)
  | vCmds (m : Option (List (String × List String)))
  | vPy (v : PyVal)
deriving DecidableEq

/-- The literal white list of case properties in `Case.is_valid`
(`farn/core/case.py` lines 145-154).  The fifth entry is the single string
`"pathis_leaf"`: in `farn/farn.py` lines 224-234 the list is written
`['case', 'layer', 'level', 'index', 'path' 'is_leaf', 'no_of_samples', ...]`
with a missing comma, so Python concatenates the two adjacent literals, and
`farn/core/case.py` line 150 carries the concatenated string verbatim. -/
def whitelist : List String :=
  ["case", "layer", "level", "index", "pathis_leaf", "no_of_samples", "condition",
   "command_sets"]

/-- `dir(self)` for the `Case` class, restricted to the non-dunder attribute
names, in the sorted order Python returns.  Dunder names can never match an
entry of `whitelist` and are omitted. -/
def dirCase : List String :=
  ["add_parameters", "case", "command_sets", "condition", "index", "is_leaf",
   "is_valid", "layer", "level", "no_of_samples", "parameters", "path", "status",
   "to_dict"]

/-- `eval(f"self.{attribute}")` for a whitelisted attribute name.  The
catch-all is unreachable: the function is only applied to names filtered
through `whitelist` that occur in `dir(self)`. -/
def Case.attrValue (c : Case) : String → ScopeVal
  | "case" => .vStr c.caseName
  | "layer" => .vStr c.layer
  | "level" => .vInt c.level
  | "index" => .vInt c.index
  | "no_of_samples" => .vInt c.no_of_samples
  | "condition" => .vCond c.condition
  | "command_sets" => .vCmds c.command_sets
  | _ => .vPy PyVal.none

/-- The case-property part of the evaluation scope (`farn/core/case.py`
lines 141-162): every attribute of `dir(self)` that occurs in the white
list is bound to its value. -/
def metadataScope (c : Case) : List (String × ScopeVal) :=
  (dirCase.filter (fun a => whitelist.contains a)).map (fun a => (a, c.attrValue a))

/-- The parameter part of the scope (`farn/core/case.py` lines 164-176):
every parameter whose name is truthy and does not match `^_` is bound to
its value.  (The `farn/farn.py` copy binds via `exec`, which can raise for
exotic names or values and then return `False`; that branch is irrelevant
to the claims, which quantify over successfully bound parameters.) -/
def parameterScope (c : Case) : List (String × ScopeVal) :=
  (c.parameters.filter (fun p => p.name != "" && !(p.name.startsWith "_"))).map
    (fun p => (p.name, ScopeVal.vPy p.value))

/-- The full scope visible to the filter expression. -/
def filterScope (c : Case) : List (String × ScopeVal) :=
  metadataScope c ++ parameterScope c

/-- The opaque model of Python `eval` of a filter expression: given the
expression string and the scope the source built, return the resulting
object, or `none` when evaluation raises. -/
abbrev Evaluator := String → List (String × ScopeVal) → Option PyVal

/-- The effective `_action` (`farn/core/case.py` lines 108-114): a missing or
falsy `_action` defaults to `"exclude"` with a warning. -/
def effectiveAction (cond : Condition) : String :=
  if optStrFalsy cond.action then "exclude" else cond.action.getD ""

/-- `Case.is_valid` (`farn/core/case.py` lines 80-221; the `farn/farn.py`
lines 161-299 copy has the same control flow).  The source's parameter loop
returns `False` at the first parameter with a falsy name or a falsy value;
the `any` below is `true` under exactly the same condition, so the returned
Bool agrees.  On an evaluation error (`f ... = none`) the flag
`filter_expression_evaluates_to_true` keeps its initial `False` and the
configured action is still applied to it. -/
def isValid (f : Evaluator) (c : Case) : Bool :=
  match c.condition with
  | Option.none => true
  | Option.some cond =>
    if optStrFalsy cond.filterExpr then true
    else
      let action := effectiveAction cond
      if c.parameters.isEmpty then false
      else if c.parameters.any (fun p => p.name == "" || !p.value.truthy) then false
      else
        let flag :=
          match f (cond.filterExpr.getD "") (filterScope c) with
          | Option.none => false
          | Option.some v => v.truthy
        if action == "exclude" then !flag
        else if action == "include" then flag
        else true

/-! ## Cases collection (`farn/core/case.py`) -/

/-- `Cases.filter` (`farn/core/case.py` lines 380-409).  `levels` models the
already-normalised `_levels` list (the source wraps a plain `int` argument
in a singleton list); the source allocates fresh lists and leaves the
receiver untouched. -/
def casesFilter (f : Evaluator) (levels : List Int) (validOnly : Bool)
    (cs : List Case) : List Case :=
  let filtered := cs.filter
    (fun c => levels.contains (c.level : Int) || (c.is_leaf && levels.contains (-1)))
  if validOnly then filtered.filter (fun c => isValid f c) else filtered

/-- Modelled from the spec: the one-pass subsequence selection asserted by
the filter claim. -/
def casesFilterSpec (f : Evaluator) (levels : List Int) (validOnly : Bool)
    (cs : List Case) : List Case :=
  cs.filter (fun c =>
    (levels.contains (c.level : Int) || (c.is_leaf && levels.contains (-1)))
    && (!validOnly || isValid f c))

/-- The `parameters` argument accepted by `add_parameters`
(`MutableSequence[Parameter] | MutableMapping[str, str] | None`). -/
inductive AddParametersArg where
  | seq (ps : List Param)
  | mapping (m : List (String × PyVal))
  | noneArg
deriving DecidableEq

/-- `Case.add_parameters` (`farn/core/case.py` lines 223-242): extends the
case's parameter list in place; a `None` argument only logs an error and
changes nothing. -/
def caseAddParameters (c : Case) : AddParametersArg → Case
  | .seq ps =>
      ⟨c.caseName, c.layer, c.level, c.no_of_samples, c.index, c.path, c.is_leaf,
       c.condition, c.parameters ++ ps, c.command_sets⟩
  | .mapping m =>
      ⟨c.caseName, c.layer, c.level, c.no_of_samples, c.index, c.path, c.is_leaf,
       c.condition, c.parameters ++ m.map (fun e => ⟨e.1, e.2⟩), c.command_sets⟩
  | .noneArg => c

/-- `Cases.add_parameters` (`farn/core/case.py` lines 282-291), in explicit
state-passing form.  The method deep-copies the list (`deepcopy` builds
fresh objects whose values equal the originals, so on values it is the
identity, and the copy shares no mutable state with the receiver), extends
the parameters of every case of that copy, discards the copy and returns
`None`.  The first component is the receiver's state after the call; the
second is the discarded local `_cases` after the loop. -/
def casesAddParameters (cs : List Case) (arg : AddParametersArg) :
    List Case × List Case :=
  let copied := cs
  (cs, copied.map (fun c => caseAddParameters c arg))

/-! ## Case tree builder (`farn/farn.py`, `create_cases`) -/

/-- The `_samples` block of a layer after sampling, as consumed by
`create_next_level_cases` (`farn/farn.py` lines 460-476): the `_case_name`
entry and the remaining per-parameter value lists in dict insertion order
(all keys distinct, the `_case_name` key removed). -/
structure SampleSet where
  caseNames : List String
  valueLists : List (String × List PyVal)
deriving DecidableEq

/-- One layer as prepared by `create_cases` (`farn/farn.py` lines 433-439
and 452-517): its name, the optional sample block (`none` models a missing
`_samples` element or a missing `_case_name` entry, both of which abort the
level), the non-underscore user variables in insertion order, the optional
`_condition` and `_commands`. -/
structure Layer where
  name : String
  samples : Option SampleSet
  userVariables : List (String × PyVal)
  condition : Option Condition
  commands : Option (List (String × List String))
deriving DecidableEq

/-- `samples_in_current_layer[parameter_name]`: dict lookup among the value
lists (the keys are distinct, so `find?` is the dict access). -/
def lookupValues (ls : List (String × List PyVal)) (n : String) : List PyVal :=
  ((ls.find? (fun e => e.1 == n)).map Prod.snd).getD []

/-- `parameter_names_in_current_layer` (`farn/farn.py` lines 484-492): the
sampled parameter names of the layer that are not already defined in a
preceding layer (on collision a warning is logged and the preceding
definition prevails). -/
def retainedSampleNames (inherited : List String) (ss : SampleSet) : List String :=
  (ss.valueLists.map Prod.fst).filter (fun n => !inherited.contains n)

/-- `user_variables_in_current_layer` (`farn/farn.py` lines 494-510): the
non-underscore layer variables that collide neither with an inherited
parameter name nor with a retained sampled name of the same layer (on
collision a warning is logged and the variable is skipped). -/
def retainedUserVariables (inherited sampled : List String)
    (uservars : List (String × PyVal)) : List Param :=
  (uservars.filter (fun uv => !inherited.contains uv.1 && !sampled.contains uv.1)).map
    (fun uv => ⟨uv.1, uv.2⟩)

/-- `case_parameters` (`farn/farn.py` lines 522-529): the base case's
parameters with truthy names, extended by `Parameter(name, samples[name][index])`
for every retained sampled name, extended by the retained user variables.
An index beyond a value list raises `IndexError` in the source; `getD`
models the in-range accesses the claims are about. -/
def buildCaseParameters (base : Case) (ss : SampleSet)
    (uservars : List (String × PyVal)) (index : Nat) : List Param :=
  let baseKept := base.parameters.filter (fun p => p.name != "")
  let inherited := baseKept.map (fun p => p.name)
  let sampledNames := retainedSampleNames inherited ss
  baseKept
    ++ sampledNames.map (fun n => ⟨n, (lookupValues ss.valueLists n).getD index PyVal.none⟩)
    ++ retainedUserVariables inherited sampledNames uservars

/-- One `Case` object as constructed in the loop of
`create_next_level_cases` (`farn/farn.py` lines 519-542).  `rq` models the
external collaborator `dictIO.utils.strings.remove_quotes`; `total` is
`len(layers)`, so a case is a leaf iff its level is the last one. -/
def buildCase (rq : String → String) (total : Nat) (level : Nat) (L : Layer)
    (ss : SampleSet) (base : Case) (index : Nat) (rawName : String) : Case :=
  ⟨rq rawName, L.name, level, ss.caseNames.length, index, base.path ++ [rq rawName],
   decide (level = total - 1), L.condition,
   buildCaseParameters base ss L.userVariables index, L.commands⟩

/-- The loop over `enumerate(current_layer['_samples']['_case_name'])`
(`farn/farn.py` lines 519-552), parameterised by the recursive call for the
next level (`recurse`).  Returns the cases produced at this level and below
in source append order (each case directly precedes its subtree), together
with the number of invalid cases counted. -/
def processLevel (recurse : Case → List Case × Nat) (buildAt : Nat → String → Case)
    (validOnly : Bool) (f : Evaluator) : Nat → List String → List Case × Nat
  | _, [] => ([], 0)
  | i, nm :: rest =>
    let c := buildAt i nm
    let tail := processLevel recurse buildAt validOnly f (i + 1) rest
    if !validOnly || isValid f c then
      let sub := if c.is_leaf then ([], 0) else recurse c
      (c :: (sub.1 ++ tail.1), sub.2 + tail.2)
    else
      (tail.1, 1 + tail.2)

/-- `create_next_level_cases` (`farn/farn.py` lines 441-554): recursion over
the remaining layers (`rest = layers[level:]`; the empty case is unreachable
in the source because recursion stops at the leaf level).  A layer without a
usable sample block aborts the level with a warning and produces nothing. -/
def createNextLevelCases (validOnly : Bool) (f : Evaluator) (rq : String → String)
    (total : Nat) : List Layer → Nat → Case → List Case × Nat
  | [], _, _ => ([], 0)
  | L :: rest, level, base =>
    match L.samples with
    | Option.none => ([], 0)
    | Option.some ss =>
      processLevel (fun c => createNextLevelCases validOnly f rq total rest (level + 1) c)
        (buildCase rq total level L ss base) validOnly f 0 ss.caseNames

/-- The synthetic root case `Case(path=case_dir)` (`farn/farn.py` line 557):
all defaults, parameters normalised to the empty list. -/
def rootCase (caseDir : List String) : Case :=
  ⟨"", "", 0, 0, 0, caseDir, false, Option.none, [], Option.none⟩

/-- `create_cases` (`farn/farn.py` lines 387-572): expands all layers
depth-first starting from the synthetic root case; returns the collected
cases (pre-order) and the invalid-case counter. -/
def createCases (validOnly : Bool) (f : Evaluator) (rq : String → String)
    (layers : List Layer) (caseDir : List String) : List Case × Nat :=
  createNextLevelCases validOnly f rq layers.length layers 0 (rootCase caseDir)

/-- Modelled from the spec: what one sample index contributes under
`valid_only` according to the pruning claim - a valid case is appended and,
unless it is a leaf, followed by its complete subtree; an invalid case
contributes no case at all (neither itself nor any descendant) and exactly
one increment of the invalid counter. -/
def specContribution (recurse : Case → List Case × Nat) (f : Evaluator) (c : Case) :
    List Case × Nat :=
  if isValid f c then
    (c :: (if c.is_leaf then [] else (recurse c).1), if c.is_leaf then 0 else (recurse c).2)
  else ([], 1)

/-- Modelled from the spec: the whole level is the concatenation of the
per-index contributions, each index independent of its siblings. -/
def specLevelExpansion (recurse : Case → List Case × Nat) (buildAt : Nat → String → Case)
    (f : Evaluator) : Nat → List String → List Case × Nat
  | _, [] => ([], 0)
  | i, nm :: rest =>
    let contrib := specContribution recurse f (buildAt i nm)
    let tail := specLevelExpansion recurse buildAt f (i + 1) rest
    (contrib.1 ++ tail.1, contrib.2 + tail.2)

/-- Well-formedness of a layer that the source inherits from Python dict
semantics: the sampled-parameter keys and the user-variable keys are each
free of duplicates. -/
def WFLayer (L : Layer) : Prop :=
  (match L.samples with
   | Option.none => True
   | Option.some ss => (ss.valueLists.map Prod.fst).Nodup)
  ∧ (L.userVariables.map Prod.fst).Nodup

/-- Names of a parameter list. -/
def paramNamesOf (ps : List Param) : List String := ps.map (fun p => p.name)

/-! ## Concrete fixtures for witnesses -/

/-- An evaluator whose evaluation always raises (e.g. the expression
references an undefined name). -/
def failEval : Evaluator := fun _ _ => Option.none

/-- An evaluator that always returns `True`. -/
def trueEval : Evaluator := fun _ _ => Option.some (PyVal.bool true)

/-- A case with a filter expression referencing an undefined name and action
`include`. -/
def includeFailCase : Case :=
  ⟨"c0", "l0", 0, 1, 0, [], true,
   Option.some ⟨Option.some "undefined_name", Option.some "include"⟩,
   [⟨"x", PyVal.int 1⟩], Option.none⟩

/-- The same case with action `exclude`. -/
def excludeFailCase : Case :=
  ⟨"c0", "l0", 0, 1, 0, [], true,
   Option.some ⟨Option.some "undefined_name", Option.some "exclude"⟩,
   [⟨"x", PyVal.float 1⟩], Option.none⟩

/-- A case with a filter expression and a parameter whose value is the
legitimate float `0.0`. -/
def zeroValueCase : Case :=
  ⟨"c0", "l0", 0, 1, 0, [], true,
   Option.some ⟨Option.some "x > 0", Option.some "exclude"⟩,
   [⟨"x", PyVal.float 0⟩], Option.none⟩

/-- An evaluator implementing exactly the expression `index != 1` over the
scope, raising on any other expression or on a missing binding. -/
def indexEval : Evaluator := fun expr scope =>
  if expr == "index != 1" then
    match scope.find? (fun e => e.1 == "index") with
    | Option.some e =>
      match e.2 with
      | ScopeVal.vInt n => Option.some (PyVal.bool (n != 1))
      | _ => Option.none
    | Option.none => Option.none
  else Option.none

/-- Witness sample set for layer 0: two samples of `x`. -/
def ssA : SampleSet := ⟨["lA_0", "lA_1"], [("x", [PyVal.int 10, PyVal.int 20])]⟩

/-- Witness sample set for layer 1: one sample of `y`. -/
def ssB : SampleSet := ⟨["lB_0"], [("y", [PyVal.int 5])]⟩

/-- Witness layer 0: two samples of `x`, condition `index != 1` with action
`exclude` (so index 0 is excluded and index 1 kept). -/
def layerA : Layer :=
  ⟨"lA", Option.some ssA, [],
   Option.some ⟨Option.some "index != 1", Option.some "exclude"⟩, Option.none⟩

/-- Witness layer 1 (leaf): one sample of `y`, one static user variable, no
condition. -/
def layerB : Layer :=
  ⟨"lB", Option.some ssB, [("s", PyVal.str "v")], Option.none, Option.none⟩

theorem numDigitsAux_pos (fuel m : Nat) : 1 ≤ numDigitsAux fuel m := by
  cases fuel with
  | zero => simp [numDigitsAux]
  | succ f =>
    unfold numDigitsAux
    split <;> omega

theorem numDigitsAux_char :
    ∀ fuel m : Nat, m ≤ fuel → 1 ≤ m →
      10 ^ (numDigitsAux fuel m - 1) ≤ m ∧ m < 10 ^ numDigitsAux fuel m := by
  intro fuel
  induction fuel with
  | zero => intro m h1 h2; omega
  | succ f ih =>
    intro m hm h1
    unfold numDigitsAux
    by_cases h10 : m < 10
    · rw [if_pos h10]
      exact ⟨by simpa using h1, by simpa using h10⟩
    · rw [if_neg h10]
      push_neg at h10
      have hdiv1 : 1 ≤ m / 10 := (Nat.one_le_div_iff (by norm_num)).mpr h10
      have hdivlt : m / 10 < m := Nat.div_lt_self (by omega) (by norm_num)
      obtain ⟨hA, hB⟩ := ih (m / 10) (by omega) hdiv1
      have hdpos : 1 ≤ numDigitsAux f (m / 10) := numDigitsAux_pos f (m / 10)
      set d := numDigitsAux f (m / 10) with hd
      have hpow : 10 ^ d = 10 * 10 ^ (d - 1) := by
        have hfix : d - 1 + 1 = d := by omega
        calc 10 ^ d = 10 ^ (d - 1 + 1) := by rw [hfix]
          _ = 10 * 10 ^ (d - 1) := by rw [pow_succ]; ring
      have hmul : 10 * (m / 10) ≤ m := by
        have := Nat.div_add_mod m 10
        omega
      have hup : m < 10 * (m / 10) + 10 := by
        have := Nat.div_add_mod m 10
        have := Nat.mod_lt m (show 0 < 10 by norm_num)
        omega
      constructor
      · have : 10 * 10 ^ (d - 1) ≤ 10 * (m / 10) := by
          exact Nat.mul_le_mul_left 10 hA
        simp only [Nat.add_sub_cancel]
        omega
      · have h2 : m / 10 + 1 ≤ 10 ^ d := hB
        have : 10 * (m / 10) + 10 ≤ 10 * 10 ^ d := by omega
        calc m < 10 * (m / 10) + 10 := hup
          _ ≤ 10 * 10 ^ d := this
          _ = 10 ^ (d + 1) := by rw [pow_succ]; ring

theorem numDigits_pos (m : Nat) : 1 ≤ numDigits m := numDigitsAux_pos m m

theorem numDigits_char (m : Nat) (h : 1 ≤ m) :
    10 ^ (numDigits m - 1) ≤ m ∧ m < 10 ^ numDigits m :=
  numDigitsAux_char m m le_rfl h

theorem numDigits_eq_of (m w : Nat) (hw : 1 ≤ w)
    (hlo : 10 ^ (w - 1) ≤ m) (hhi : m < 10 ^ w) : numDigits m = w := by
  have hm1 : 1 ≤ m := le_trans (Nat.one_le_pow _ _ (by norm_num)) hlo
  obtain ⟨hA, hB⟩ := numDigits_char m hm1
  have hd := numDigits_pos m
  have h1 : 10 ^ (w - 1) < 10 ^ numDigits m := lt_of_le_of_lt hlo hB
  have h2 : 10 ^ (numDigits m - 1) < 10 ^ w := lt_of_le_of_lt hA hhi
  have h1lt : w - 1 < numDigits m := by
    exact (Nat.pow_lt_pow_iff_right (by norm_num)).mp h1
  have h2lt : numDigits m - 1 < w := by
    exact (Nat.pow_lt_pow_iff_right (by norm_num)).mp h2
  omega

/-- Bernoulli-style lower bound over the naturals:
`a ^ (m+1) + (m+1) * a ^ m ≤ (a+1) ^ (m+1)`. -/
theorem succ_pow_lower (a : Nat) : ∀ m : Nat, a ^ (m + 1) + (m + 1) * a ^ m ≤ (a + 1) ^ (m + 1) := by
  intro m
  induction m with
  | zero => simp
  | succ m ih =>
    have hexp : (a ^ (m + 1) + (m + 1) * a ^ m) * (a + 1)
        = a ^ (m + 2) + (m + 2) * a ^ (m + 1) + (m + 1) * a ^ m := by ring
    have hstep : a ^ (m + 2) + (m + 2) * a ^ (m + 1)
        ≤ (a ^ (m + 1) + (m + 1) * a ^ m) * (a + 1) := by
      rw [hexp]; omega
    have hmul : (a ^ (m + 1) + (m + 1) * a ^ m) * (a + 1) ≤ (a + 1) ^ (m + 1) * (a + 1) :=
      Nat.mul_le_mul_right (a + 1) ih
    calc a ^ (m + 1 + 1) + (m + 1 + 1) * a ^ (m + 1)
        ≤ (a ^ (m + 1) + (m + 1) * a ^ m) * (a + 1) := hstep
      _ ≤ (a + 1) ^ (m + 1) * (a + 1) := hmul
      _ = (a + 1) ^ (m + 1 + 1) := by ring

/-- For `2 ≤ n ≤ 10 ^ 6` the width computed by the source,
`int(log10(n) - 1e-6) + 1`, coincides with the digit count of `n - 1`
(which is the width asserted by the spec). -/
theorem leadingZeros_eq_numDigits_pred (n : Nat) (h2 : 2 ≤ n) (h6 : n ≤ 1000000) :
    leadingZeros n = numDigits (n - 1) := by
  unfold leadingZeros
  rw [if_neg (by omega)]
  have hn1 : 1 ≤ n := by omega
  obtain ⟨hA, hB⟩ := numDigits_char n hn1
  have hdpos := numDigits_pos n
  set k := numDigits n - 1 with hk
  have hkd : numDigits n = k + 1 := by omega
  rcases eq_or_lt_of_le hA with hpow | hlt
  · -- `n` is exactly `10 ^ k`: the epsilon pushes the floor one below.
    have hkpos : 1 ≤ k := by
      by_contra hc
      have hk0 : k = 0 := by omega
      rw [hk0] at hpow
      simp at hpow
      omega
    have hcond : ¬ 10 ^ (k * 1000000 + 1) ≤ n ^ 1000000 := by
      have : n ^ 1000000 = 10 ^ (k * 1000000) := by
        rw [← hpow, ← pow_mul]
      rw [this]
      have : 10 ^ (k * 1000000) < 10 ^ (k * 1000000 + 1) := by
        exact (Nat.pow_lt_pow_iff_right (by norm_num)).mpr (by omega)
      omega
    simp only [hcond, if_false]
    refine (numDigits_eq_of (n - 1) k hkpos ?_ ?_).symm
    · -- `10 ^ (k-1) ≤ 10 ^ k - 1` because `10 ^ (k-1) < 10 ^ k`
      have : 10 ^ (k - 1) < 10 ^ k := by
        exact (Nat.pow_lt_pow_iff_right (by norm_num)).mpr (by omega)
      omega
    · omega
  · -- `10 ^ k < n`: the epsilon does not change the floor.
    have hklt : 10 ^ k < 10 ^ 6 := lt_of_lt_of_le hlt (by norm_num at h6 ⊢; exact h6)
    have hk5 : k ≤ 5 := by
      have := (Nat.pow_lt_pow_iff_right (show 1 < 10 by norm_num)).mp hklt
      omega
    have hcond : 10 ^ (k * 1000000 + 1) ≤ n ^ 1000000 := by
      have hstep1 : 10 ^ (k * 1000000 + 1) ≤ 10 ^ (k * 999999 + 6) := by
        apply Nat.pow_le_pow_right (by norm_num)
        nlinarith
      have hstep2 : (10 ^ k : Nat) ^ 1000000 + 1000000 * (10 ^ k) ^ 999999
          ≤ (10 ^ k + 1) ^ 1000000 := succ_pow_lower (10 ^ k) 999999
      have hstep3 : (10 ^ k + 1 : Nat) ^ 1000000 ≤ n ^ 1000000 :=
        Nat.pow_le_pow_left (by omega) 1000000
      have heq : (10 : Nat) ^ (k * 999999 + 6) = 10 ^ 6 * (10 ^ k) ^ 999999 := by
        rw [pow_add, ← pow_mul]
        exact Nat.mul_comm _ _
      calc 10 ^ (k * 1000000 + 1) ≤ 10 ^ (k * 999999 + 6) := hstep1
        _ = 10 ^ 6 * (10 ^ k) ^ 999999 := heq
        _ ≤ (10 ^ k) ^ 1000000 + 1000000 * (10 ^ k) ^ 999999 := by norm_num
        _ ≤ (10 ^ k + 1) ^ 1000000 := hstep2
        _ ≤ n ^ 1000000 := hstep3
    simp only [hcond, if_true]
    refine (numDigits_eq_of (n - 1) (k + 1) (by omega) ?_ ?_).symm
    · simp only [Nat.add_sub_cancel]
      omega
    · rw [hkd] at hB
      omega

theorem million_one_pow_lt_real :
    ((1000001 : ℝ)) ^ (1000000 : ℕ) < (10 : ℝ) ^ (6000001 : ℕ) := by
  have hexp1 : (1 + 1 / 1000000 : ℝ) ≤ Real.exp (1 / 1000000) := by
    rw [add_comm]
    exact Real.add_one_le_exp _
  have hexplt : Real.exp 1 < 10 := lt_trans Real.exp_one_lt_d9 (by norm_num)
  have hsplit : (1000001 : ℝ) = 1000000 * (1 + 1 / 1000000) := by norm_num
  have hnonneg : (0 : ℝ) ≤ 1 + 1 / 1000000 := by norm_num
  have hpow : (1 + 1 / 1000000 : ℝ) ^ (1000000 : ℕ) ≤ Real.exp (1 / 1000000) ^ (1000000 : ℕ) :=
    pow_le_pow_left₀ hnonneg hexp1 1000000
  have hexpmul : Real.exp (1 / 1000000 : ℝ) ^ (1000000 : ℕ) = Real.exp 1 := by
    rw [← Real.exp_nat_mul]
    norm_num
  have hbase : (1000000 : ℝ) ^ (1000000 : ℕ) = (10 : ℝ) ^ (6000000 : ℕ) := by
    have h10 : (1000000 : ℝ) = 10 ^ (6 : ℕ) := by norm_num
    rw [h10, ← pow_mul]
  calc (1000001 : ℝ) ^ (1000000 : ℕ)
      = (1000000 : ℝ) ^ (1000000 : ℕ) * (1 + 1 / 1000000) ^ (1000000 : ℕ) := by
        rw [hsplit, mul_pow]
    _ ≤ (1000000 : ℝ) ^ (1000000 : ℕ) * Real.exp 1 := by
        rw [← hexpmul]
        apply mul_le_mul_of_nonneg_left hpow
        positivity
    _ < (1000000 : ℝ) ^ (1000000 : ℕ) * 10 := by
        apply mul_lt_mul_of_pos_left hexplt
        positivity
    _ = (10 : ℝ) ^ (6000001 : ℕ) := by
        rw [hbase, ← pow_succ]

theorem million_one_pow_lt : (1000001 : ℕ) ^ 1000000 < 10 ^ 6000001 := by
  exact_mod_cast million_one_pow_lt_real

theorem numDigits_1000001 : numDigits 1000001 = 7 :=
  numDigits_eq_of 1000001 7 (by norm_num) (by norm_num) (by norm_num)

/-- The value the source computes at one million and one samples:
`int(log10(1000001) - 1e-6) + 1 = 6`, because the fractional part of
`log10(1000001)` is about `4.34e-7 < 1e-6`. -/
theorem leadingZeros_1000001 : leadingZeros 1000001 = 6 := by
  unfold leadingZeros
  rw [if_neg (by norm_num)]
  simp only [numDigits_1000001]
  have hcond : ¬ 10 ^ ((7 - 1) * 1000000 + 1) ≤ 1000001 ^ 1000000 := by
    have h : (7 - 1) * 1000000 + 1 = 6000001 := by norm_num
    rw [h]
    exact not_le.mpr million_one_pow_lt
  rw [if_neg hcond]

theorem claimWidth_1000001 : claimWidth 1000001 = 7 := by
  unfold claimWidth
  rw [if_neg (by norm_num)]
  norm_num
  exact numDigits_eq_of 1000000 7 (by norm_num) (by norm_num) (by norm_num)

theorem generateCaseNames_length (l : String) (n : Nat) :
    (generateCaseNames l n).length = n := by
  simp [generateCaseNames]

theorem column_length [Inhabited α] (m : List (List α)) (j : Nat) :
    (column m j).length = m.length := by
  simp [column]

theorem writeColumns_mem [Inhabited α] (m : List (List α)) :
    ∀ (fs : List String) (j : Nat) (e : String × List α),
      e ∈ writeColumns m j fs → e.2.length = m.length := by
  intro fs
  induction fs with
  | nil => intro j e he; simp [writeColumns] at he
  | cons f fs ih =>
    intro j e he
    simp only [writeColumns, List.mem_cons] at he
    rcases he with he | he
    · rw [he]; exact column_length m j
    · exact ih (j + 1) e he

theorem writeColumns_getElem [Inhabited α] (m : List (List α)) :
    ∀ (fs : List String) (j i : Nat) (f : String) (vs : List α),
      (writeColumns m j fs)[i]? = some (f, vs) → vs = column m (j + i) := by
  intro fs
  induction fs with
  | nil => intro j i f vs h; simp [writeColumns] at h
  | cons g fs ih =>
    intro j i f vs h
    cases i with
    | zero =>
      simp only [writeColumns, List.getElem?_cons_zero, Option.some.injEq, Prod.mk.injEq] at h
      rw [← h.2]
      simp
    | succ i =>
      simp only [writeColumns, List.getElem?_cons_succ] at h
      have := ih (j + 1) i f vs h
      rw [this]
      congr 1
      omega

theorem cornerPoints_length (ranges : List (α × α)) :
    (cornerPoints ranges).length = 2 ^ ranges.length := by
  induction ranges with
  | nil => simp [cornerPoints]
  | cons r rest ih =>
    simp only [cornerPoints, List.length_append, List.length_map, ih, List.length_cons]
    ring

theorem cornerPoints_mem_length (ranges : List (α × α)) :
    ∀ c ∈ cornerPoints ranges, c.length = ranges.length := by
  induction ranges with
  | nil => intro c hc; simp [cornerPoints] at hc; simp [hc]
  | cons r rest ih =>
    intro c hc
    simp only [cornerPoints, List.mem_append, List.mem_map] at hc
    rcases hc with ⟨c', hc', rfl⟩ | ⟨c', hc', rfl⟩ <;> simp [ih c' hc']

theorem productStep_map_flatten (r : α × α) :
    ∀ ts : List (PyTuple α),
      (productStep ts r).map PyTuple.flatten
        = (ts.map PyTuple.flatten).flatMap (fun t => [t ++ [r.1], t ++ [r.2]]) := by
  intro ts
  induction ts with
  | nil => simp [productStep]
  | cons t ts ih => simp [productStep, PyTuple.flatten, ih]

theorem foldl_productStep_flatten :
    ∀ (rest : List (α × α)) (ts : List (PyTuple α)),
      (rest.foldl productStep ts).map PyTuple.flatten
        = (ts.map PyTuple.flatten).flatMap
            (fun t => (cornerPoints rest).map (fun c => t ++ c)) := by
  intro rest
  induction rest with
  | nil =>
    intro ts
    simp [cornerPoints]
  | cons r rest ih =>
    intro ts
    rw [List.foldl_cons, ih (productStep ts r), productStep_map_flatten]
    rw [List.flatMap_assoc]
    simp only [cornerPoints, List.flatMap_cons, List.flatMap_nil, List.append_nil,
      List.map_append, List.map_map, Function.comp_def, List.append_assoc,
      List.singleton_append]

/-- The bounding box built by the source is exactly the cartesian product of
the per-range corner values, first range varying slowest. -/
theorem createBoundingBox_eq_cornerPoints (ranges : List (α × α)) (h : ranges ≠ []) :
    createBoundingBox ranges = cornerPoints ranges := by
  match ranges with
  | [r] => simp [createBoundingBox, cornerPoints]
  | r1 :: r2 :: rest =>
    show (rest.foldl productStep (productInit r1 r2)).map PyTuple.flatten = _
    rw [foldl_productStep_flatten]
    simp only [productInit, List.map_cons, List.map_nil, PyTuple.flatten,
      cornerPoints, List.map_append, List.map_map, Function.comp_def,
      List.flatMap_cons, List.flatMap_nil, List.append_nil, List.append_assoc,
      List.singleton_append, List.cons_append, List.nil_append]

theorem createBoundingBox_length (ranges : List (α × α)) (h : ranges ≠ []) :
    (createBoundingBox ranges).length = 2 ^ ranges.length := by
  rw [createBoundingBox_eq_cornerPoints ranges h, cornerPoints_length]

theorem clipValues_length [LinearOrder α] (ranges : List (α × α)) (m : List (List α)) :
    (clipValues ranges m).length = m.length := by
  simp [clipValues]

theorem generateNormalLhs_eq_lhsStyle [Inhabited α] [LinearOrder α] (layerName : String)
    (p : SamplingParams α) (engine : List (List α)) :
    generateNormalLhsSamples layerName p engine
      = generateLhsStyleSamples layerName p
          (if p.ranges.isEmpty then engine else clipValues p.ranges engine) := rfl

theorem lhsStyle_entry_lengths [Inhabited α] (layerName : String) (p : SamplingParams α)
    (engine : List (List α)) (hlen : engine.length = p.numberOfSamples)
    (hbb : includeBB p = true → p.ranges.length = p.names.length ∧ 1 ≤ p.names.length) :
    ∀ e ∈ (generateLhsStyleSamples layerName p engine).entries,
      e.2.length = totalNumberOfSamples p := by
  intro e he
  have hwc := writeColumns_mem (m :=
    if includeBB p then createBoundingBox p.ranges ++ engine else engine) p.names 0 e he
  rw [hwc]
  cases hb : includeBB p with
  | true =>
    obtain ⟨hr, hk⟩ := hbb hb
    have hne : p.ranges ≠ [] := by
      intro hnil
      rw [hnil] at hr
      simp at hr
      omega
    have h2k : 1 ≤ 2 ^ p.names.length := Nat.one_le_two_pow
    simp [hb, totalNumberOfSamples, numberOfBBSamples, List.length_append,
      createBoundingBox_length p.ranges hne, hr, hlen]
    omega
  | false =>
    simp [hb, totalNumberOfSamples, numberOfBBSamples, hlen]

theorem column_append [Inhabited α] (m1 m2 : List (List α)) (j : Nat) :
    column (m1 ++ m2) j = column m1 j ++ column m2 j := by
  simp [column]

theorem totalN_iff_includeBB (p : SamplingParams α) :
    totalNumberOfSamples p = p.numberOfSamples + 2 ^ p.names.length ↔ includeBB p = true := by
  constructor
  · intro htot
    by_contra hb
    have hb' : includeBB p = false := by
      cases h : includeBB p
      · rfl
      · exact absurd h hb
    have hzero : totalNumberOfSamples p = p.numberOfSamples := by
      simp [totalNumberOfSamples, numberOfBBSamples, hb']
    have h2k : 1 ≤ 2 ^ p.names.length := Nat.one_le_two_pow
    omega
  · intro hb
    simp [totalNumberOfSamples, numberOfBBSamples, hb]

theorem lhsStyle_conclusion [Inhabited α] (layerName : String) (p : SamplingParams α)
    (engine : List (List α)) (hlen : engine.length = p.numberOfSamples)
    (hbb : includeBB p = true → p.ranges.length = p.names.length ∧ 1 ≤ p.names.length) :
    (∀ e ∈ (generateLhsStyleSamples layerName p engine).entries,
        e.2.length = (generateLhsStyleSamples layerName p engine).caseNames.length)
    ∧ (generateLhsStyleSamples layerName p engine).caseNames.length = totalNumberOfSamples p := by
  have hnames : (generateLhsStyleSamples layerName p engine).caseNames.length
      = totalNumberOfSamples p := generateCaseNames_length _ _
  refine ⟨?_, hnames⟩
  intro e he
  rw [hnames]
  exact lhsStyle_entry_lengths layerName p engine hlen hbb e he

/-- C1.  For every sampling type and valid parameter set, every per-variable
value sequence in the dict returned by `generate_samples` has the length of
the generated case-name sequence; that common length is the requested
`_numberOfSamples` plus `2 ^ k` extra samples (k = number of variables) if
and only if `_includeBoundingBox` is requested, and for fixed sampling it is
the supplied per-variable value-list length. -/
theorem claim_C1 [Inhabited α] [LinearOrder α] (linspace : α → α → Nat → List α)
    (rvs : Nat → Nat → List α) (engine : List (List α)) (st : SamplingType)
    (layerName : String) (p : SamplingParams α) (s : Samples α)
    (hvalid : ValidSamplingInput linspace rvs engine st p)
    (hs : generateSamples linspace rvs engine st layerName p = Option.some s) :
    (∀ e ∈ s.entries, e.2.length = s.caseNames.length)
    ∧ s.caseNames.length = expectedSampleCount st p
    ∧ (st ≠ SamplingType.fixed →
        (s.caseNames.length = p.numberOfSamples + 2 ^ p.names.length ↔ includeBB p = true)) := by
  cases st with
  | fixed =>
    simp only [generateSamples, generateFixedSamples] at hs
    by_cases hemp : p.values.isEmpty
    · rw [if_pos hemp] at hs
      exact absurd hs (by simp)
    · rw [if_neg hemp] at hs
      by_cases hall : p.values.all (fun v => v.length == (p.values.headD []).length) = true
      · rw [if_pos hall] at hs
        have hseq := Option.some.inj hs
        subst hseq
        refine ⟨?_, ?_, fun hne => absurd rfl hne⟩
        · rintro ⟨nm, vv⟩ he
          have hv : vv ∈ p.values := (List.of_mem_zip he).2
          have hb := List.all_eq_true.mp hall vv hv
          have hvl : vv.length = (p.values.headD []).length := eq_of_beq hb
          simpa [generateCaseNames_length] using hvl
        · exact generateCaseNames_length _ _
      · rw [if_neg hall] at hs
        exact absurd hs (by simp)
  | linSpace =>
    have hlin : ∀ a b n, (linspace a b n).length = n := hvalid
    have hseq := Option.some.inj hs
    subst hseq
    refine ⟨?_, generateCaseNames_length _ _, ?_⟩
    · rintro ⟨nm, vv⟩ he
      simp only [generateLinSpaceSamples, List.mem_map, Prod.mk.injEq] at he
      obtain ⟨pair, hmem, hnm, hvv⟩ := he
      have hvv2 : vv = linspace pair.2.1 pair.2.2 (totalNumberOfSamples p) := hvv.symm
      show vv.length = (generateCaseNames layerName (totalNumberOfSamples p)).length
      rw [hvv2, hlin, generateCaseNames_length]
    · intro _
      show (generateCaseNames layerName (totalNumberOfSamples p)).length
          = p.numberOfSamples + 2 ^ p.names.length ↔ includeBB p = true
      rw [generateCaseNames_length]
      exact totalN_iff_includeBB p
  | arbitrary =>
    have hrvs : ∀ i n, (rvs i n).length = n := hvalid
    have hseq := Option.some.inj hs
    subst hseq
    refine ⟨?_, generateCaseNames_length _ _, ?_⟩
    · rintro ⟨nm, vv⟩ he
      simp only [generateArbitrarySamples, List.mem_map, Prod.mk.injEq] at he
      obtain ⟨i, hmem, hnm, hvv⟩ := he
      have hvv2 : vv = rvs i (totalNumberOfSamples p) := hvv.symm
      show vv.length = (generateCaseNames layerName (totalNumberOfSamples p)).length
      rw [hvv2, hrvs, generateCaseNames_length]
    · intro _
      show (generateCaseNames layerName (totalNumberOfSamples p)).length
          = p.numberOfSamples + 2 ^ p.names.length ↔ includeBB p = true
      rw [generateCaseNames_length]
      exact totalN_iff_includeBB p
  | uniformLhs =>
    obtain ⟨hlen, hbb⟩ := hvalid
    have hseq := Option.some.inj hs
    subst hseq
    obtain ⟨hA, hB⟩ := lhsStyle_conclusion layerName p engine hlen hbb
    exact ⟨hA, hB, fun _ => hB ▸ totalN_iff_includeBB p⟩
  | sobol =>
    obtain ⟨hlen, hbb⟩ := hvalid
    have hseq := Option.some.inj hs
    subst hseq
    obtain ⟨hA, hB⟩ := lhsStyle_conclusion layerName p engine hlen hbb
    exact ⟨hA, hB, fun _ => hB ▸ totalN_iff_includeBB p⟩
  | hilbertCurve =>
    obtain ⟨hlen, hbb⟩ := hvalid
    have hseq := Option.some.inj hs
    subst hseq
    obtain ⟨hA, hB⟩ := lhsStyle_conclusion layerName p engine hlen hbb
    exact ⟨hA, hB, fun _ => hB ▸ totalN_iff_includeBB p⟩
  | normalLhs =>
    obtain ⟨hlen, hbb⟩ := hvalid
    have hseq := Option.some.inj hs
    subst hseq
    rw [generateNormalLhs_eq_lhsStyle]
    have hlen2 : (if p.ranges.isEmpty then engine else clipValues p.ranges engine).length
        = p.numberOfSamples := by
      by_cases hre : p.ranges.isEmpty <;> simp [hre, clipValues_length, hlen]
    obtain ⟨hA, hB⟩ := lhsStyle_conclusion layerName p _ hlen2 hbb
    exact ⟨hA, hB, fun _ => hB ▸ totalN_iff_includeBB p⟩

/-- C1 witness: a uniform-LHS run with two fields, two requested samples and
the bounding box requested. -/
theorem claim_C1_witness :
    (∀ e ∈ (generateLhsStyleSamples "layer" paramsW engineW).entries,
        e.2.length = (generateLhsStyleSamples "layer" paramsW engineW).caseNames.length)
    ∧ (generateLhsStyleSamples "layer" paramsW engineW).caseNames.length
        = expectedSampleCount SamplingType.uniformLhs paramsW
    ∧ (SamplingType.uniformLhs ≠ SamplingType.fixed →
        ((generateLhsStyleSamples "layer" paramsW engineW).caseNames.length
            = paramsW.numberOfSamples + 2 ^ paramsW.names.length
          ↔ includeBB paramsW = true)) :=
  claim_C1 linspaceW rvsW engineW SamplingType.uniformLhs "layer" paramsW
    (generateLhsStyleSamples "layer" paramsW engineW)
    ⟨rfl, fun _ => ⟨rfl, by decide⟩⟩ rfl

/-- C5.  For the sampling variants that support `_includeBoundingBox` (the
ones routing through `_write_values_into_samples_dict`: uniformLhs,
normalLhs, sobol, hilbertCurve), when the bounding box is requested with `k`
variables, the first `2 ^ k` entries of every returned value sequence are
exactly the cartesian-product corner coordinates of the declared ranges (in
the fixed order of `cornerPoints`), prepended before the
algorithm-generated samples. -/
theorem claim_C5 [Inhabited α] [LinearOrder α] (linspace : α → α → Nat → List α)
    (rvs : Nat → Nat → List α) (engine : List (List α)) (st : SamplingType)
    (layerName : String) (p : SamplingParams α) (s : Samples α)
    (hst : st = SamplingType.uniformLhs ∨ st = SamplingType.normalLhs
      ∨ st = SamplingType.sobol ∨ st = SamplingType.hilbertCurve)
    (hbb : includeBB p = true)
    (hr : p.ranges.length = p.names.length) (hk : 1 ≤ p.names.length)
    (hs : generateSamples linspace rvs engine st layerName p = Option.some s)
    (i : Nat) (f : String) (vs : List α) (he : s.entries[i]? = some (f, vs)) :
    vs.take (2 ^ p.names.length) = (cornerPoints p.ranges).map (fun c => c.getD i default)
    ∧ ∃ eu : List (List α),
        eu.length = engine.length
        ∧ (st = SamplingType.normalLhs ∨ eu = engine)
        ∧ vs = (cornerPoints p.ranges).map (fun c => c.getD i default) ++ column eu i := by
  have hne : p.ranges ≠ [] := by
    intro hnil
    rw [hnil] at hr
    simp at hr
    omega
  obtain ⟨eu, hsu, hlen, hcase⟩ : ∃ eu : List (List α),
      s = generateLhsStyleSamples layerName p eu ∧ eu.length = engine.length
      ∧ (st = SamplingType.normalLhs ∨ eu = engine) := by
    rcases hst with rfl | rfl | rfl | rfl
    · exact ⟨engine, (Option.some.inj hs).symm, rfl, Or.inr rfl⟩
    · refine ⟨if p.ranges.isEmpty then engine else clipValues p.ranges engine, ?_, ?_,
        Or.inl rfl⟩
      · rw [(Option.some.inj hs).symm, generateNormalLhs_eq_lhsStyle]
      · by_cases hre : p.ranges.isEmpty <;> simp [hre, clipValues_length]
    · exact ⟨engine, (Option.some.inj hs).symm, rfl, Or.inr rfl⟩
    · exact ⟨engine, (Option.some.inj hs).symm, rfl, Or.inr rfl⟩
  subst hsu
  simp only [generateLhsStyleSamples, writeValuesIntoSamples, hbb, if_true] at he
  have hcol := writeColumns_getElem _ p.names 0 i f vs he
  rw [Nat.zero_add, createBoundingBox_eq_cornerPoints p.ranges hne, column_append] at hcol
  have hlencp : (column (cornerPoints p.ranges) i).length = 2 ^ p.names.length := by
    rw [column_length, cornerPoints_length, hr]
  have hcorn : column (cornerPoints p.ranges) i
      = (cornerPoints p.ranges).map (fun c => c.getD i default) := rfl
  constructor
  · rw [hcol, ← hlencp, List.take_left]
    exact hcorn
  · exact ⟨eu, hlen, hcase, by rw [hcol, hcorn]⟩

/-- C5 witness: with ranges `[0,1] × [2,3]` and bounding box requested, the
first four values of field `a` are the corner coordinates `0, 0, 1, 1`,
prepended before the engine column. -/
theorem claim_C5_witness :
    ([0, 0, 1, 1, 5, 7] : List Int).take (2 ^ paramsW.names.length)
      = (cornerPoints paramsW.ranges).map (fun c => c.getD 0 default)
    ∧ ∃ eu : List (List Int),
        eu.length = engineW.length
        ∧ (SamplingType.uniformLhs = SamplingType.normalLhs ∨ eu = engineW)
        ∧ ([0, 0, 1, 1, 5, 7] : List Int)
            = (cornerPoints paramsW.ranges).map (fun c => c.getD 0 default)
              ++ column eu 0 :=
  claim_C5 linspaceW rvsW engineW SamplingType.uniformLhs "layer" paramsW
    (generateLhsStyleSamples "layer" paramsW engineW)
    (Or.inl rfl) rfl rfl (by decide) rfl 0 "a" [0, 0, 1, 1, 5, 7] (by decide)

/-- C6 counterexample.  The claim asserts width `floor(log10(N - eps)) + 1`
for every `N ≥ 1`; that width is the digit count of `N - 1` (so 7 at
`N = 1000001`).  The source computes `int(log10(N) - 1e-6) + 1`, which at
`N = 1000001` is 6, because the fractional part of `log10(1000001)` is
about `4.34e-7 < 1e-6`: the generated names differ from the asserted ones
(already at index 0: `layer_000000` against `layer_0000000`). -/
theorem claim_C6_counterexample :
    generateCaseNames "layer" 1000001 ≠ claimCaseNames "layer" 1000001 := by
  intro h
  have h0 := congrArg (fun l => l[0]?) h
  simp only [generateCaseNames, claimCaseNames, List.getElem?_map] at h0
  rw [List.getElem?_range (by norm_num)] at h0
  simp only [Option.map_some'] at h0
  rw [leadingZeros_1000001, claimWidth_1000001] at h0
  exact absurd (Option.some.inj h0) (by decide)

/-- C6 (amended).  For `1 ≤ N ≤ 10^6` the generated case names are
`{layer_name}_{index}` for `index` in `0 .. N-1`, zero-padded to the width
`floor(log10(N - eps)) + 1` asserted by the claim (`claimWidth`), and for
`N ≥ 2` that width is characterised by `10^(w-1) ≤ N-1 < 10^w`; in
particular `N = 20` gives width 2 and names `base_00` .. `base_19`.
Beyond `10^6` the code's width `int(log10(N) - 1e-6) + 1` can fall below
the claimed one (first at `N = 10^6 + 1`). -/
theorem claim_C6 (layerName : String) (n : Nat) (h1 : 1 ≤ n) (h2 : n ≤ 1000000) :
    generateCaseNames layerName n = claimCaseNames layerName n
    ∧ (2 ≤ n → 10 ^ (claimWidth n - 1) ≤ n - 1 ∧ n - 1 < 10 ^ claimWidth n) := by
  constructor
  · by_cases hn1 : n = 1
    · subst hn1
      unfold generateCaseNames claimCaseNames
      have hw : formatPadded (leadingZeros 1) 0 = formatPadded (claimWidth 1) 0 := by decide
      have hr1 : List.range 1 = [0] := by simp [List.range_succ]
      simp only [hr1, List.map_cons, List.map_nil, hw]
    · have h2n : 2 ≤ n := by omega
      have hw : leadingZeros n = claimWidth n := by
        rw [leadingZeros_eq_numDigits_pred n h2n h2]
        unfold claimWidth
        rw [if_neg hn1]
      unfold generateCaseNames claimCaseNames
      rw [hw]
  · intro h2n
    have hcw : claimWidth n = numDigits (n - 1) := by
      unfold claimWidth
      rw [if_neg (by omega)]
    rw [hcw]
    exact numDigits_char (n - 1) (by omega)

/-- C6 witness: twenty samples give the claimed names `base_00` .. `base_19`
(width 2). -/
theorem claim_C6_witness :
    generateCaseNames "base" 20 = claimCaseNames "base" 20
    ∧ claimCaseNames "base" 20
      = ["base_00", "base_01", "base_02", "base_03", "base_04", "base_05", "base_06",
         "base_07", "base_08", "base_09", "base_10", "base_11", "base_12", "base_13",
         "base_14", "base_15", "base_16", "base_17", "base_18", "base_19"] :=
  ⟨(claim_C6 "base" 20 (by norm_num) (by norm_num)).1, by decide⟩

/-- C7.  The claim asserts that the validity-evaluation scope exposes the
metadata names `case`, `layer`, `level`, `index`, `is_leaf`,
`no_of_samples`, `condition`, `command_sets`, in particular `is_leaf`.  The
code disagrees: because the whitelist in the source carries the
concatenated literal `pathis_leaf` (missing comma between `path` and
`is_leaf` in `farn/farn.py` lines 229-230, copied verbatim into
`farn/core/case.py` line 150), the scope binds only seven names and
neither `is_leaf` nor `path` is available to the filter expression. -/
theorem claim_C7 (c : Case) :
    (metadataScope c).map Prod.fst
      = ["case", "command_sets", "condition", "index", "layer", "level", "no_of_samples"]
    ∧ "is_leaf" ∉ (metadataScope c).map Prod.fst
    ∧ "path" ∉ (metadataScope c).map Prod.fst
    ∧ "pathis_leaf" ∈ whitelist ∧ "is_leaf" ∉ whitelist ∧ "path" ∉ whitelist := by
  have h : (metadataScope c).map Prod.fst
      = dirCase.filter (fun a => whitelist.contains a) := by
    simp [metadataScope, List.map_map, Function.comp_def]
  refine ⟨?_, ?_, ?_, by decide, by decide, by decide⟩
  · rw [h]; decide
  · rw [h]; decide
  · rw [h]; decide

/-- C9.  For a case with a condition carrying a filter expression, a single
parameter with a falsy value (`None`, `0`, `0.0`, `False` or the empty
string) makes `is_valid` return `False` before the expression is evaluated:
the conclusion holds for every evaluator `f`. -/
theorem claim_C9 (f : Evaluator) (c : Case) (cond : Condition) (p : Param)
    (hc : c.condition = Option.some cond)
    (hf : optStrFalsy cond.filterExpr = false)
    (hp : p ∈ c.parameters) (hv : p.value.truthy = false) :
    isValid f c = false := by
  simp only [isValid, hc]
  rw [if_neg (by simp [hf])]
  have hany : c.parameters.any (fun p => p.name == "" || !p.value.truthy) = true := by
    rw [List.any_eq_true]
    exact ⟨p, hp, by rw [hv]; simp⟩
  by_cases hemp : c.parameters.isEmpty
  · rw [if_pos hemp]
  · rw [if_neg hemp, if_pos hany]

/-- C9 witness: a parameter with the legitimate float value `0.0` makes the
case invalid even for an evaluator that would accept the expression. -/
theorem claim_C9_witness : isValid trueEval zeroValueCase = false :=
  claim_C9 trueEval zeroValueCase ⟨Option.some "x > 0", Option.some "exclude"⟩
    ⟨"x", PyVal.float 0⟩ rfl rfl (by decide) (by decide)

/-- C2 counterexample.  The claim asserts that an evaluation error makes the
case valid regardless of the configured action.  With action `include` the
flag `filter_expression_evaluates_to_true` keeps its initial `False` after
the failed evaluation, and the include branch then returns `False`: the
case is invalid. -/
theorem claim_C2_counterexample : isValid failEval includeFailCase = false := by decide

/-- C2 (amended).  For a case with a filter expression and complete
parameters, when evaluating the expression raises, the expression is
treated as not-true, so `is_valid` returns `True` exactly when the
effective action is not `include` (in particular for the default action
`exclude`), and `False` for action `include`. -/
theorem claim_C2 (f : Evaluator) (c : Case) (cond : Condition)
    (hc : c.condition = Option.some cond)
    (hf : optStrFalsy cond.filterExpr = false)
    (hne : c.parameters.isEmpty = false)
    (hok : c.parameters.any (fun p => p.name == "" || !p.value.truthy) = false)
    (heval : f (cond.filterExpr.getD "") (filterScope c) = Option.none) :
    isValid f c = !(effectiveAction cond == "include") := by
  simp only [isValid, hc]
  rw [if_neg (by simp [hf])]
  rw [if_neg (by simp [hne])]
  rw [if_neg (by simp [hok])]
  rw [heval]
  by_cases h1 : effectiveAction cond == "exclude"
  · have he := eq_of_beq h1
    rw [he]
    decide
  · by_cases h2 : effectiveAction cond == "include"
    · have he := eq_of_beq h2
      rw [he]
      decide
    · simp [h1, h2]

/-- C2 witness: with the default-style action `exclude`, an evaluation
error leaves the case valid. -/
theorem claim_C2_witness :
    (isValid failEval excludeFailCase
      = !(effectiveAction ⟨Option.some "undefined_name", Option.some "exclude"⟩ == "include"))
    ∧ isValid failEval excludeFailCase = true :=
  ⟨claim_C2 failEval excludeFailCase ⟨Option.some "undefined_name", Option.some "exclude"⟩
      rfl rfl rfl (by decide) rfl,
   by decide⟩

/-- C8.  `Cases.filter` returns the subsequence of cases whose level is in
the requested level set, where `-1` additionally selects every leaf case;
with `valid_only` the subsequence is further restricted to valid cases.
The two-pass source computation equals the one-pass specification, and the
result is a subsequence of the receiver (the receiver itself is untouched:
the source only allocates fresh lists). -/
theorem claim_C8 (f : Evaluator) (levels : List Int) (validOnly : Bool) (cs : List Case) :
    casesFilter f levels validOnly cs = casesFilterSpec f levels validOnly cs
    ∧ (casesFilter f levels validOnly cs).Sublist cs := by
  constructor
  · unfold casesFilter casesFilterSpec
    cases validOnly with
    | false => simp
    | true =>
      simp only [if_true, List.filter_filter]
      exact List.filter_congr (fun c _ => by simp [Bool.and_comm])
  · unfold casesFilter
    cases validOnly with
    | false => simp
    | true =>
      simp only [if_true]
      exact (List.filter_sublist _).trans (List.filter_sublist cs)

/-- C10.  `Cases.add_parameters` leaves the receiving collection unchanged:
the deep copy is extended and discarded, so after the call the receiver
holds exactly the cases it held before, while `Case.add_parameters` on a
single case does extend that case's parameters in place (for both the
sequence and the mapping argument form). -/
theorem claim_C10 (cs : List Case) (arg : AddParametersArg) :
    (casesAddParameters cs arg).1 = cs
    ∧ (casesAddParameters cs arg).2 = cs.map (fun c => caseAddParameters c arg)
    ∧ (∀ (c : Case) (ps : List Param),
        (caseAddParameters c (AddParametersArg.seq ps)).parameters = c.parameters ++ ps)
    ∧ (∀ (c : Case) (m : List (String × PyVal)),
        (caseAddParameters c (AddParametersArg.mapping m)).parameters
          = c.parameters ++ m.map (fun e => ⟨e.1, e.2⟩)) :=
  ⟨rfl, rfl, fun _ _ => rfl, fun _ _ => rfl⟩

theorem processLevel_eq_spec (recurse : Case → List Case × Nat)
    (buildAt : Nat → String → Case) (f : Evaluator) :
    ∀ (names : List String) (i : Nat),
      processLevel recurse buildAt true f i names
        = specLevelExpansion recurse buildAt f i names := by
  intro names
  induction names with
  | nil => intro i; rfl
  | cons nm rest ih =>
    intro i
    simp only [processLevel, specLevelExpansion, ih (i + 1), Bool.not_true, Bool.false_or]
    by_cases hv : isValid f (buildAt i nm) = true
    · rw [if_pos hv]
      simp only [specContribution, hv, if_true]
      rw [Prod.mk.injEq]
      constructor
      · cases hl : (buildAt i nm).is_leaf <;> simp [hl]
      · cases hl : (buildAt i nm).is_leaf <;> simp [hl]
    · rw [if_neg hv]
      simp [specContribution, hv]

theorem processLevel_valid_mem (recurse : Case → List Case × Nat)
    (buildAt : Nat → String → Case) (f : Evaluator)
    (hrec : ∀ c c', c' ∈ (recurse c).1 → isValid f c' = true) :
    ∀ (names : List String) (i : Nat) (c' : Case),
      c' ∈ (processLevel recurse buildAt true f i names).1 → isValid f c' = true := by
  intro names
  induction names with
  | nil => intro i c' h; simp [processLevel] at h
  | cons nm rest ih =>
    intro i c' h
    simp only [processLevel, Bool.not_true, Bool.false_or] at h
    by_cases hv : isValid f (buildAt i nm) = true
    · rw [if_pos hv] at h
      simp only [List.mem_cons, List.mem_append] at h
      rcases h with rfl | h | h
      · exact hv
      · cases hl : (buildAt i nm).is_leaf with
        | true => rw [hl] at h; simp at h
        | false => rw [hl] at h; simp only [if_false, Bool.false_eq_true] at h; exact hrec _ _ h
      · exact ih (i + 1) c' h
    · rw [if_neg hv] at h
      exact ih (i + 1) c' h

theorem createNextLevelCases_all_valid (f : Evaluator) (rq : String → String) (total : Nat) :
    ∀ (rest : List Layer) (level : Nat) (base : Case) (c : Case),
      c ∈ (createNextLevelCases true f rq total rest level base).1 → isValid f c = true := by
  intro rest
  induction rest with
  | nil => intro level base c h; simp [createNextLevelCases] at h
  | cons L rest ih =>
    intro level base c h
    cases hss : L.samples with
    | none =>
      simp only [createNextLevelCases, hss] at h
      simp at h
    | some ss =>
      simp only [createNextLevelCases, hss] at h
      exact processLevel_valid_mem _ _ f (fun c0 c' h' => ih (level + 1) c0 c' h') _ 0 c h

/-- C3.  With `valid_only` the level expands index by index: a valid case is
appended and (unless leaf) recursed into, an invalid case is neither
appended nor recursed into (its whole subtree is pruned, contributing the
empty list) and bumps the invalid counter exactly once, while sibling
subtrees are produced completely; consequently every case in the output is
valid. -/
theorem claim_C3 (f : Evaluator) (rq : String → String) (caseDir : List String)
    (L : Layer) (rest : List Layer) (ss : SampleSet)
    (hss : L.samples = Option.some ss) :
    createCases true f rq (L :: rest) caseDir
      = specLevelExpansion
          (fun c => createNextLevelCases true f rq (L :: rest).length rest 1 c)
          (buildCase rq (L :: rest).length 0 L ss (rootCase caseDir)) f 0 ss.caseNames
    ∧ (∀ c, isValid f c = false →
        specContribution
          (fun c => createNextLevelCases true f rq (L :: rest).length rest 1 c) f c
          = ([], 1))
    ∧ (∀ c ∈ (createCases true f rq (L :: rest) caseDir).1, isValid f c = true) := by
  refine ⟨?_, ?_, ?_⟩
  · show createNextLevelCases true f rq (L :: rest).length (L :: rest) 0 (rootCase caseDir) = _
    simp only [createNextLevelCases, hss]
    exact processLevel_eq_spec _ _ f ss.caseNames 0
  · intro c hcv
    simp [specContribution, hcv]
  · intro c hc
    exact createNextLevelCases_all_valid f rq _ (L :: rest) 0 (rootCase caseDir) c hc

/-- C3 witness: the two-layer configuration of the spec scenario, layer 0
excluding every index other than 1; the output holds exactly the level-0
case of index 1 and its single leaf child, and one invalid case was
counted. -/
theorem claim_C3_witness :
    (createCases true indexEval (fun s => s) [layerA, layerB] []
      = specLevelExpansion
          (fun c => createNextLevelCases true indexEval (fun s => s) [layerA, layerB].length
            [layerB] 1 c)
          (buildCase (fun s => s) [layerA, layerB].length 0 layerA ssA (rootCase []))
          indexEval 0 ssA.caseNames)
    ∧ ((createCases true indexEval (fun s => s) [layerA, layerB] []).1.map
        (fun c => c.caseName) = ["lA_1", "lB_0"]
      ∧ (createCases true indexEval (fun s => s) [layerA, layerB] []).2 = 1) :=
  ⟨(claim_C3 indexEval (fun s => s) [] layerA [layerB] ssA rfl).1, by decide⟩

theorem processLevel_mem_cases (recurse : Case → List Case × Nat)
    (buildAt : Nat → String → Case) (validOnly : Bool) (f : Evaluator) :
    ∀ (names : List String) (i : Nat) (c' : Case),
      c' ∈ (processLevel recurse buildAt validOnly f i names).1 →
      (∃ j nm, names[j]? = some nm ∧ c' = buildAt (i + j) nm)
      ∨ ∃ c0, c0 ∈ (processLevel recurse buildAt validOnly f i names).1
          ∧ (∃ j nm, names[j]? = some nm ∧ c0 = buildAt (i + j) nm)
          ∧ c0.is_leaf = false
          ∧ c' ∈ (recurse c0).1
          ∧ (∀ x ∈ (recurse c0).1,
              x ∈ (processLevel recurse buildAt validOnly f i names).1) := by
  intro names
  induction names with
  | nil => intro i c' h; simp [processLevel] at h
  | cons nm rest ih =>
    intro i c' h
    by_cases hcond : (!validOnly || isValid f (buildAt i nm)) = true
    · have hout : processLevel recurse buildAt validOnly f i (nm :: rest)
          = ((buildAt i nm) ::
              ((if (buildAt i nm).is_leaf then (([] : List Case), (0 : Nat))
                else recurse (buildAt i nm)).1
                ++ (processLevel recurse buildAt validOnly f (i + 1) rest).1),
             (if (buildAt i nm).is_leaf then (([] : List Case), (0 : Nat))
                else recurse (buildAt i nm)).2
               + (processLevel recurse buildAt validOnly f (i + 1) rest).2) := by
        simp only [processLevel]
        rw [if_pos hcond]
      rw [hout] at h
      simp only [List.mem_cons, List.mem_append] at h
      rcases h with rfl | h | h
      · exact Or.inl ⟨0, nm, by simp, by simp⟩
      · cases hl : (buildAt i nm).is_leaf with
        | true => rw [hl] at h; simp at h
        | false =>
          rw [hl] at h
          simp only [Bool.false_eq_true, if_false] at h
          refine Or.inr ⟨buildAt i nm, ?_, ⟨0, nm, by simp, by simp⟩, hl, h, ?_⟩
          · rw [hout]
            exact List.mem_cons_self _ _
          · intro x hx
            rw [hout]
            refine List.mem_cons_of_mem _ (List.mem_append_left _ ?_)
            rw [hl]
            simpa using hx
      · rcases ih (i + 1) c' h with ⟨j, nm', hj, hc⟩ |
          ⟨c0, hc0, ⟨j, nm', hj, hc0e⟩, hleaf, hcin, hsub⟩
        · exact Or.inl ⟨j + 1, nm', by simpa using hj, by rw [hc]; congr 1; omega⟩
        · refine Or.inr ⟨c0, ?_,
            ⟨j + 1, nm', by simpa using hj, by rw [hc0e]; congr 1; omega⟩,
            hleaf, hcin, ?_⟩
          · rw [hout]
            exact List.mem_cons_of_mem _ (List.mem_append_right _ hc0)
          · intro x hx
            rw [hout]
            exact List.mem_cons_of_mem _ (List.mem_append_right _ (hsub x hx))
    · have hout : processLevel recurse buildAt validOnly f i (nm :: rest)
          = ((processLevel recurse buildAt validOnly f (i + 1) rest).1,
             1 + (processLevel recurse buildAt validOnly f (i + 1) rest).2) := by
        simp only [processLevel]
        rw [if_neg hcond]
      rw [hout] at h
      rcases ih (i + 1) c' h with ⟨j, nm', hj, hc⟩ |
        ⟨c0, hc0, ⟨j, nm', hj, hc0e⟩, hleaf, hcin, hsub⟩
      · exact Or.inl ⟨j + 1, nm', by simpa using hj, by rw [hc]; congr 1; omega⟩
      · refine Or.inr ⟨c0, ?_,
          ⟨j + 1, nm', by simpa using hj, by rw [hc0e]; congr 1; omega⟩,
          hleaf, hcin, ?_⟩
        · rw [hout]
          exact hc0
        · intro x hx
          rw [hout]
          exact hsub x hx

theorem buildCaseParameters_names (base : Case) (ss : SampleSet)
    (uservars : List (String × PyVal)) (index : Nat) :
    paramNamesOf (buildCaseParameters base ss uservars index)
      = paramNamesOf (base.parameters.filter (fun p => p.name != ""))
        ++ retainedSampleNames
            (paramNamesOf (base.parameters.filter (fun p => p.name != ""))) ss
        ++ (uservars.filter (fun uv =>
              !(paramNamesOf (base.parameters.filter (fun p => p.name != ""))).contains uv.1
              && !(retainedSampleNames
                    (paramNamesOf (base.parameters.filter (fun p => p.name != ""))) ss).contains
                  uv.1)).map Prod.fst := by
  unfold buildCaseParameters paramNamesOf retainedUserVariables
  simp [List.map_append, List.map_map, Function.comp_def]

theorem buildCaseParameters_nodup (base : Case) (ss : SampleSet)
    (uservars : List (String × PyVal)) (index : Nat)
    (hb : (paramNamesOf base.parameters).Nodup)
    (hss : (ss.valueLists.map Prod.fst).Nodup)
    (huv : (uservars.map Prod.fst).Nodup) :
    (paramNamesOf (buildCaseParameters base ss uservars index)).Nodup := by
  rw [buildCaseParameters_names]
  set kept := paramNamesOf (base.parameters.filter (fun p => p.name != "")) with hkept
  set sn := retainedSampleNames kept ss with hsn
  set fuv := uservars.filter (fun uv => !kept.contains uv.1 && !sn.contains uv.1) with hfuv
  have h1 : kept.Nodup := by
    rw [hkept]
    unfold paramNamesOf at hb ⊢
    have hsb : (base.parameters.filter (fun p => p.name != "")).Sublist base.parameters :=
      List.filter_sublist _
    exact hb.sublist (hsb.map (fun p : Param => p.name))
  have h2 : sn.Nodup := by
    rw [hsn]
    unfold retainedSampleNames
    exact hss.filter _
  have h3 : (fuv.map Prod.fst).Nodup := by
    rw [hfuv]
    have hsb : (uservars.filter
        (fun uv => !kept.contains uv.1 && !sn.contains uv.1)).Sublist uservars :=
      List.filter_sublist _
    exact huv.sublist (hsb.map Prod.fst)
  have d12 : kept.Disjoint sn := by
    intro a ha hain
    rw [hsn] at hain
    unfold retainedSampleNames at hain
    obtain ⟨-, hcond⟩ := List.mem_filter.mp hain
    simp at hcond
    exact hcond ha
  have dunion : ∀ a ∈ fuv.map Prod.fst, a ∉ kept ∧ a ∉ sn := by
    intro a ha
    rw [hfuv] at ha
    obtain ⟨uv, huvmem, rfl⟩ := List.mem_map.mp ha
    obtain ⟨-, hcond⟩ := List.mem_filter.mp huvmem
    have hcond2 := hcond
    simp only [Bool.and_eq_true] at hcond2
    obtain ⟨hc1, hc2⟩ := hcond2
    constructor
    · simp at hc1
      exact hc1
    · simp at hc2
      exact hc2
  rw [List.nodup_append, List.nodup_append]
  refine ⟨⟨h1, h2, d12⟩, h3, ?_⟩
  intro a ha hain
  rcases List.mem_append.mp ha with ha1 | ha2
  · exact (dunion a hain).1 ha1
  · exact (dunion a hain).2 ha2

theorem createNextLevelCases_parameters (validOnly : Bool) (f : Evaluator)
    (rq : String → String) (total : Nat) :
    ∀ (rest : List Layer) (level : Nat) (base : Case),
      (∀ L ∈ rest, WFLayer L) →
      (paramNamesOf base.parameters).Nodup →
      ∀ c ∈ (createNextLevelCases validOnly f rq total rest level base).1,
        (paramNamesOf c.parameters).Nodup
        ∧ ∃ (b : Case) (ss : SampleSet) (uservars : List (String × PyVal)),
            c.parameters = buildCaseParameters b ss uservars c.index
            ∧ (paramNamesOf b.parameters).Nodup
            ∧ ((b = base ∧ c.level = level)
                ∨ (b ∈ (createNextLevelCases validOnly f rq total rest level base).1
                    ∧ c.level = b.level + 1)) := by
  intro rest
  induction rest with
  | nil => intro level base hwf hbase c hc; simp [createNextLevelCases] at hc
  | cons L rest ih =>
    intro level base hwf hbase c hc
    cases hssam : L.samples with
    | none =>
      simp only [createNextLevelCases, hssam] at hc
      simp at hc
    | some ss =>
      have hwfL := hwf L (List.mem_cons_self _ _)
      have hssn : (ss.valueLists.map Prod.fst).Nodup := by
        have := hwfL.1
        rw [hssam] at this
        exact this
      have huvn : (L.userVariables.map Prod.fst).Nodup := hwfL.2
      have hout : createNextLevelCases validOnly f rq total (L :: rest) level base
          = processLevel
              (fun c => createNextLevelCases validOnly f rq total rest (level + 1) c)
              (buildCase rq total level L ss base) validOnly f 0 ss.caseNames := by
        simp only [createNextLevelCases, hssam]
      rw [hout] at hc
      rcases processLevel_mem_cases _ _ validOnly f ss.caseNames 0 c hc with
        ⟨j, nm, hj, hce⟩ | ⟨c0, hc0mem, ⟨j, nm, hj, hc0e⟩, hleaf, hcin, hsub⟩
      · subst hce
        refine ⟨buildCaseParameters_nodup base ss L.userVariables _ hbase hssn huvn,
          base, ss, L.userVariables, rfl, hbase, Or.inl ⟨rfl, rfl⟩⟩
      · have hc0n : (paramNamesOf c0.parameters).Nodup := by
          rw [hc0e]
          exact buildCaseParameters_nodup base ss L.userVariables _ hbase hssn huvn
        have hres := ih (level + 1) c0 (fun L' hL' => hwf L' (List.mem_cons_of_mem _ hL'))
          hc0n c hcin
        obtain ⟨hnodup, b, ss', uv', hdecomp, hbn, hlink⟩ := hres
        refine ⟨hnodup, b, ss', uv', hdecomp, hbn, Or.inr ?_⟩
        rcases hlink with ⟨rfl, hlev⟩ | ⟨hbmem, hlev⟩
        · constructor
          · rw [hout]
            exact hc0mem
          · have hblev : b.level = level := by
              rw [hc0e]
              exact rfl
            rw [hlev, hblev]
        · constructor
          · rw [hout]
            exact hsub b hbmem
          · exact hlev

/-- C4.  Every case produced by `create_cases` carries duplicate-free
parameter names, and its parameter list is exactly the construction of the
source: the parent's (ancestor-accumulated) parameters first, then the
layer's own sampled values restricted to names not already inherited, then
the layer's static user variables restricted to names colliding neither
with an inherited nor with a retained sampled name - i.e. on a name
collision the earlier definition wins, in the order inherited >
own-layer-sampled > own-layer-static, and the losing definition is skipped.
The parent of a level-0 case is the synthetic root; any other parent is
itself in the output one level up. -/
theorem claim_C4 (validOnly : Bool) (f : Evaluator) (rq : String → String)
    (layers : List Layer) (caseDir : List String)
    (hwf : ∀ L ∈ layers, WFLayer L) :
    ∀ c ∈ (createCases validOnly f rq layers caseDir).1,
      (paramNamesOf c.parameters).Nodup
      ∧ ∃ (b : Case) (ss : SampleSet) (uservars : List (String × PyVal)),
          c.parameters = buildCaseParameters b ss uservars c.index
          ∧ paramNamesOf c.parameters
              = paramNamesOf (b.parameters.filter (fun p => p.name != ""))
                ++ retainedSampleNames
                    (paramNamesOf (b.parameters.filter (fun p => p.name != ""))) ss
                ++ (uservars.filter (fun uv =>
                      !(paramNamesOf (b.parameters.filter
                          (fun p => p.name != ""))).contains uv.1
                      && !(retainedSampleNames
                            (paramNamesOf (b.parameters.filter (fun p => p.name != "")))
                            ss).contains uv.1)).map Prod.fst
          ∧ (paramNamesOf b.parameters).Nodup
          ∧ ((b = rootCase caseDir ∧ c.level = 0)
              ∨ (b ∈ (createCases validOnly f rq layers caseDir).1
                  ∧ c.level = b.level + 1)) := by
  intro c hc
  have hroot : (paramNamesOf (rootCase caseDir).parameters).Nodup := by
    simp [rootCase, paramNamesOf]
  obtain ⟨hnodup, b, ss, uv, hdecomp, hbn, hlink⟩ :=
    createNextLevelCases_parameters validOnly f rq layers.length layers 0
      (rootCase caseDir) hwf hroot c hc
  exact ⟨hnodup, b, ss, uv, hdecomp,
    by rw [hdecomp, buildCaseParameters_names], hbn, hlink⟩

/-- C4 witness: in the two-layer fixture, the leaf case holds the inherited
`x`, then its own sampled `y`, then the static `s`, and the hypotheses of
the parameter claim hold for the fixture layers. -/
theorem claim_C4_witness :
    (paramNamesOf (((createCases true indexEval (fun s => s)
        [layerA, layerB] []).1.getD 1 (rootCase [])).parameters)).Nodup
    ∧ ∃ (b : Case) (ss : SampleSet) (uservars : List (String × PyVal)),
        ((createCases true indexEval (fun s => s) [layerA, layerB] []).1.getD 1
            (rootCase [])).parameters
          = buildCaseParameters b ss uservars
              (((createCases true indexEval (fun s => s) [layerA, layerB] []).1.getD 1
                (rootCase [])).index)
        ∧ paramNamesOf (((createCases true indexEval (fun s => s)
              [layerA, layerB] []).1.getD 1 (rootCase [])).parameters)
            = paramNamesOf (b.parameters.filter (fun p => p.name != ""))
              ++ retainedSampleNames
                  (paramNamesOf (b.parameters.filter (fun p => p.name != ""))) ss
              ++ (uservars.filter (fun uv =>
                    !(paramNamesOf (b.parameters.filter
                        (fun p => p.name != ""))).contains uv.1
                    && !(retainedSampleNames
                          (paramNamesOf (b.parameters.filter (fun p => p.name != "")))
                          ss).contains uv.1)).map Prod.fst
        ∧ (paramNamesOf b.parameters).Nodup
        ∧ ((b = rootCase []
              ∧ ((createCases true indexEval (fun s => s) [layerA, layerB] []).1.getD 1
                  (rootCase [])).level = 0)
            ∨ (b ∈ (createCases true indexEval (fun s => s) [layerA, layerB] []).1
                ∧ ((createCases true indexEval (fun s => s) [layerA, layerB] []).1.getD 1
                    (rootCase [])).level = b.level + 1)) :=
  claim_C4 true indexEval (fun s => s) [layerA, layerB] []
    (by
      intro L hL
      simp only [List.mem_cons, List.not_mem_nil, or_false] at hL
      rcases hL with rfl | rfl
      · exact ⟨(by decide : (ssA.valueLists.map Prod.fst).Nodup), by decide⟩
      · exact ⟨(by decide : (ssB.valueLists.map Prod.fst).Nodup), by decide⟩)
    ((createCases true indexEval (fun s => s) [layerA, layerB] []).1.getD 1 (rootCase []))
    (by decide)

end Farn
